import Mathlib

/-!
Shallow embedding of the multisig blockchain library (`src/lib.rs`) and
verification of its specification.

Modelling conventions:
* `f64` monetary amounts are modelled as exact rationals (`ℚ`).
* `DateTime<Utc>` timestamps are modelled as `Nat`; every operation that
  calls `Utc::now()` takes the current time as an explicit `now` argument.
* SHA-256 is not computed: the block digest is an abstract parameter
  `H : HashFn` applied to the five fields that `Block::calculate_hash`
  feeds into the digest, and the transaction-id digest is an abstract
  parameter `HT : TxHashFn`.  Collision-freeness of `H` is never assumed
  globally; where a theorem needs it, it appears as an explicit hypothesis.
* `Block::mine_block`'s unbounded search loop is given explicit fuel and
  returns `none` when the fuel runs out (i.e. when the Rust loop would
  still be running); `some` results are exactly the terminating runs.
* Rust's `Result<_, String>` errors are modelled by an error type carrying
  the data interpolated into the corresponding `format!` message.
* `HashMap<String, _>` is modelled as an association list with
  HashMap-style insert/update semantics (`entry().or_insert(0.0)` etc.);
  the map's iteration order is never observed by the embedded code.
* The Rust field names `from`/`to` collide with Lean keywords and are
  rendered `fromAddr`/`toAddr`.
-/

namespace MultisigChain

/-- Rust `enum TransactionType` (src/lib.rs:8-27): `Standard`, `MultiSig`
(with `required_signatures` and a `signatures` list) and `TimeLocked`
(with an `unlock_time`), each carrying `from`, `to` and `amount`. -/
inductive TransactionType where
  | Standard (fromAddr toAddr : String) (amount : ℚ)
  | MultiSig (fromAddr toAddr : String) (amount : ℚ)
      (required_signatures : Nat) (signatures : List String)
  | TimeLocked (fromAddr toAddr : String) (amount : ℚ) (unlock_time : Nat)
deriving DecidableEq

/-- The `from` field shared by all three variants. -/
def TransactionType.fromAddr : TransactionType → String
  | .Standard f _ _ => f
  | .MultiSig f _ _ _ _ => f
  | .TimeLocked f _ _ _ => f

/-- The `to` field shared by all three variants. -/
def TransactionType.toAddr : TransactionType → String
  | .Standard _ t _ => t
  | .MultiSig _ t _ _ _ => t
  | .TimeLocked _ t _ _ => t

/-- The `amount` field shared by all three variants. -/
def TransactionType.amount : TransactionType → ℚ
  | .Standard _ _ a => a
  | .MultiSig _ _ a _ _ => a
  | .TimeLocked _ _ a _ => a

/-- Rust `struct Transaction` (src/lib.rs:29-35). -/
structure Transaction where
  id : String
  tx_type : TransactionType
  timestamp : Nat
  nonce : Nat
deriving DecidableEq

/-- Abstract digest for `Transaction::calculate_hash` (src/lib.rs:50-55):
a function of the transaction type, the timestamp and the nonce. -/
abbrev TxHashFn := TransactionType → Nat → Nat → String

/-- Rust `Transaction::new` (src/lib.rs:38-48): timestamp is the current
time, the id is the digest of `(tx_type, timestamp, nonce)`. -/
def Transaction.new (HT : TxHashFn) (tx_type : TransactionType)
    (nonce now : Nat) : Transaction :=
  { id := HT tx_type now nonce, tx_type := tx_type, timestamp := now, nonce := nonce }

/-- The payloads of the `format!` error strings returned by
`Transaction::is_valid` and `Blockchain::add_transaction`
(src/lib.rs:61-65, 70-73, 182). -/
inductive LedgerError where
  | InsufficientSignatures (required provided : Nat)
  | StillLocked (unlock_time : Nat)
  | InsufficientBalance (address : String) (balance : ℚ)
deriving DecidableEq

deriving instance DecidableEq for Except

/-- Rust `Transaction::is_valid` (src/lib.rs:57-79): `MultiSig` needs at
least `required_signatures` entries in `signatures`, `TimeLocked` needs
`current_time >= unlock_time`, everything else passes. -/
def Transaction.is_valid (tx : Transaction) (current_time : Nat) :
    Except LedgerError Unit :=
  match tx.tx_type with
  | .MultiSig _ _ _ required_signatures signatures =>
      if signatures.length < required_signatures then
        .error (.InsufficientSignatures required_signatures signatures.length)
      else .ok ()
  | .TimeLocked _ _ _ unlock_time =>
      if current_time < unlock_time then
        .error (.StillLocked unlock_time)
      else .ok ()
  | _ => .ok ()

/-- Rust `struct Block` (src/lib.rs:82-90). -/
structure Block where
  index : Nat
  timestamp : Nat
  transactions : List Transaction
  previous_hash : String
  hash : String
  nonce : Nat
deriving DecidableEq, Inhabited

/-- Abstract digest for `Block::calculate_hash` (src/lib.rs:107-119): a
function of `(index, timestamp, transactions, previous_hash, nonce)` —
the five fields formatted and SHA-256-hashed by the Rust code. -/
abbrev HashFn := Nat → Nat → List Transaction → String → Nat → String

/-- Rust `Block::calculate_hash` (src/lib.rs:107-119): the digest of the
block's fields other than `hash` itself. -/
def Block.calculate_hash (H : HashFn) (b : Block) : String :=
  H b.index b.timestamp b.transactions b.previous_hash b.nonce

/-- Rust `hash.starts_with(&"0".repeat(difficulty))`
(src/lib.rs:123-125, 244): the hash has at least `difficulty` leading
`'0'` characters. -/
def hashMeetsDifficulty (difficulty : Nat) (h : String) : Bool :=
  (List.replicate difficulty '0').isPrefixOf h.data

/-- Rust `Block::new` (src/lib.rs:93-105): timestamp is the current time,
`nonce = 0`, and `hash` is computed immediately from the initial state. -/
def Block.new (H : HashFn) (index : Nat) (transactions : List Transaction)
    (previous_hash : String) (now : Nat) : Block :=
  let b : Block := { index := index, timestamp := now, transactions := transactions,
                     previous_hash := previous_hash, hash := "", nonce := 0 }
  { b with hash := b.calculate_hash H }

/-- Rust `Block::mine_block` (src/lib.rs:122-131): while the stored hash
does not start with `difficulty` zeros, increment the nonce and recompute
the hash.  `fuel` bounds the number of increments; `none` means the Rust
loop would still be running after `fuel` increments. -/
def Block.mine_block (H : HashFn) (difficulty : Nat) :
    Nat → Block → Option Block
  | fuel, b =>
    if hashMeetsDifficulty difficulty b.hash then some b
    else
      match fuel with
      | 0 => none
      | fuel' + 1 =>
          let b' : Block := { b with nonce := b.nonce + 1 }
          Block.mine_block H difficulty fuel' { b' with hash := b'.calculate_hash H }

/-- `balances.get(k).unwrap_or(&0.0)`: association-list lookup with
default `0`. -/
def getBalanceMap : List (String × ℚ) → String → ℚ
  | [], _ => 0
  | (k, v) :: rest, a => if k = a then v else getBalanceMap rest a

/-- `*balances.entry(k).or_insert(0.0) += d`: add `d` to `k`'s entry,
inserting the entry at `0` first when absent. -/
def addToBalance : List (String × ℚ) → String → ℚ → List (String × ℚ)
  | [], k, d => [(k, 0 + d)]
  | (k', v) :: rest, k, d =>
      if k' = k then (k', v + d) :: rest
      else (k', v) :: addToBalance rest k d

/-- `multisig_wallets.insert(wallet_id, signers)`: HashMap insert, which
overwrites an existing entry. -/
def insertWallet : List (String × List String) → String → List String →
    List (String × List String)
  | [], k, v => [(k, v)]
  | (k', v') :: rest, k, v =>
      if k' = k then (k, v) :: rest
      else (k', v') :: insertWallet rest k v

/-- Rust `struct Blockchain` (src/lib.rs:134-140). -/
structure Blockchain where
  chain : List Block
  difficulty : Nat
  pending_transactions : List Transaction
  balances : List (String × ℚ)
  multisig_wallets : List (String × List String)
deriving DecidableEq

/-- Rust `Blockchain::create_genesis_block` (src/lib.rs:155-168): build a
zero-amount genesis-to-genesis Standard transaction, wrap it in a block
with index 0 and previous hash `"0"`, mine it and push it on the chain. -/
def Blockchain.create_genesis_block (H : HashFn) (HT : TxHashFn)
    (fuel now : Nat) (bc : Blockchain) : Option Blockchain :=
  let genesis_transaction :=
    Transaction.new HT (.Standard "genesis" "genesis" 0) 0 now
  let genesis_block := Block.new H 0 [genesis_transaction] "0" now
  match Block.mine_block H bc.difficulty fuel genesis_block with
  | none => none
  | some mined => some { bc with chain := bc.chain ++ [mined] }

/-- Rust `Blockchain::new` (src/lib.rs:143-153): empty chain, pool,
balances and wallet registry, then create and mine the genesis block. -/
def Blockchain.new (H : HashFn) (HT : TxHashFn)
    (difficulty fuel now : Nat) : Option Blockchain :=
  Blockchain.create_genesis_block H HT fuel now
    { chain := [], difficulty := difficulty, pending_transactions := [],
      balances := [], multisig_wallets := [] }

/-- Rust `Blockchain::add_transaction` (src/lib.rs:170-190): validate,
then for a non-"genesis" sender require balance (default 0) at least the
amount, then push onto the pending pool. -/
def Blockchain.add_transaction (bc : Blockchain) (transaction : Transaction)
    (now : Nat) : Except LedgerError Blockchain :=
  match transaction.is_valid now with
  | .error e => .error e
  | .ok _ =>
      let f := transaction.tx_type.fromAddr
      let amount := transaction.tx_type.amount
      if f = "genesis" then
        .ok { bc with pending_transactions := bc.pending_transactions ++ [transaction] }
      else if getBalanceMap bc.balances f < amount then
        .error (.InsufficientBalance f (getBalanceMap bc.balances f))
      else
        .ok { bc with pending_transactions := bc.pending_transactions ++ [transaction] }

/-- The balance update for one transaction inside
`Blockchain::mine_pending_transactions` (src/lib.rs:205-216): debit the
sender unless it is `"genesis"`, always credit the recipient. -/
def applyTx (balances : List (String × ℚ)) (tx : Transaction) :
    List (String × ℚ) :=
  let f := tx.tx_type.fromAddr
  let t := tx.tx_type.toAddr
  let a := tx.tx_type.amount
  let b1 := if f = "genesis" then balances else addToBalance balances f (-a)
  addToBalance b1 t a

/-- Rust `Blockchain::mine_pending_transactions` (src/lib.rs:192-220):
no-op on an empty pool; otherwise build a block on the tip from the whole
pool, mine it, apply each mined transaction's balance effect in order,
append the block and clear the pool.  `none` models a non-terminating
mining loop (fuel exhausted) or the `unwrap` panic on an empty chain. -/
def Blockchain.mine_pending_transactions (H : HashFn) (fuel now : Nat)
    (bc : Blockchain) : Option Blockchain :=
  if bc.pending_transactions.isEmpty then some bc
  else
    match bc.chain.getLast? with
    | none => none
    | some tip =>
        let block := Block.new H bc.chain.length bc.pending_transactions tip.hash now
        match Block.mine_block H bc.difficulty fuel block with
        | none => none
        | some mined =>
            some { bc with
              chain := bc.chain ++ [mined],
              pending_transactions := [],
              balances := mined.transactions.foldl applyTx bc.balances }

/-- Rust `Blockchain::create_multisig_wallet` (src/lib.rs:222-224). -/
def Blockchain.create_multisig_wallet (bc : Blockchain) (wallet_id : String)
    (signers : List String) : Blockchain :=
  { bc with multisig_wallets := insertWallet bc.multisig_wallets wallet_id signers }

/-- The three per-block checks of `Blockchain::is_chain_valid`
(src/lib.rs:231-247) for a block `b` whose predecessor is `prev`: stored
hash equals recomputed hash, `previous_hash` equals the predecessor's
stored hash, and the stored hash meets the difficulty target. -/
def blockCheck (H : HashFn) (difficulty : Nat) (prev b : Block) : Bool :=
  (b.hash == b.calculate_hash H) &&
  (b.previous_hash == prev.hash) &&
  hashMeetsDifficulty difficulty b.hash

/-- The `for i in 1..chain.len()` scan of `Blockchain::is_chain_valid`,
rendered as a pairwise walk carrying the previous block. -/
def chainChecksFrom (H : HashFn) (difficulty : Nat) :
    Block → List Block → Bool
  | _, [] => true
  | prev, b :: rest =>
      blockCheck H difficulty prev b && chainChecksFrom H difficulty b rest

/-- Rust `Blockchain::is_chain_valid` (src/lib.rs:226-250): every block
from index 1 on passes all three checks; the genesis block itself is not
re-checked. -/
def Blockchain.is_chain_valid (H : HashFn) (bc : Blockchain) : Bool :=
  match bc.chain with
  | [] => true
  | g :: rest => chainChecksFrom H bc.difficulty g rest

/-- Rust `Blockchain::get_balance` (src/lib.rs:252-254). -/
def Blockchain.get_balance (bc : Blockchain) (address : String) : ℚ :=
  getBalanceMap bc.balances address

/-- The states a `Blockchain` can reach through its public mutating API:
construction, successful `add_transaction`, terminating
`mine_pending_transactions` and `create_multisig_wallet`
(`get_balance`/`is_chain_valid` are read-only). -/
inductive Reachable (H : HashFn) (HT : TxHashFn) : Blockchain → Prop where
  | base (difficulty fuel now : Nat) (bc : Blockchain) :
      Blockchain.new H HT difficulty fuel now = some bc → Reachable H HT bc
  | add (bc bc' : Blockchain) (tx : Transaction) (now : Nat) :
      Reachable H HT bc → bc.add_transaction tx now = .ok bc' → Reachable H HT bc'
  | mine (bc bc' : Blockchain) (fuel now : Nat) :
      Reachable H HT bc → bc.mine_pending_transactions H fuel now = some bc' →
      Reachable H HT bc'
  | register (bc : Blockchain) (w : String) (s : List String) :
      Reachable H HT bc → Reachable H HT (bc.create_multisig_wallet w s)

/-- Sum of all balances stored in the balance map (spec §8:
"total credits applied equal total debits applied"). -/
def totalBalance (bal : List (String × ℚ)) : ℚ :=
  (bal.map Prod.snd).sum

/-- Total amount of the transactions in a list whose sender is the
`"genesis"` sentinel (the only net money creation in the system). -/
def genesisTotal (txs : List Transaction) : ℚ :=
  (txs.map (fun tx =>
    if tx.tx_type.fromAddr = "genesis" then tx.tx_type.amount else 0)).sum

/-- The block digest is collision-free: equal digests force equal field
tuples.  This idealisation of SHA-256 is the hypothesis under which
tampering is provably detected; it is never assumed globally. -/
def HashInjective (H : HashFn) : Prop :=
  ∀ i₁ t₁ txs₁ p₁ n₁ i₂ t₂ txs₂ p₂ n₂,
    H i₁ t₁ txs₁ p₁ n₁ = H i₂ t₂ txs₂ p₂ n₂ →
    i₁ = i₂ ∧ t₁ = t₂ ∧ txs₁ = txs₂ ∧ p₁ = p₂ ∧ n₁ = n₂

/-- `b'` is `b` with exactly one of the six `Block` fields changed to a
different value and the other five left intact. -/
def OneFieldChanged (b b' : Block) : Prop :=
  (b'.index ≠ b.index ∧ b'.timestamp = b.timestamp ∧
     b'.transactions = b.transactions ∧ b'.previous_hash = b.previous_hash ∧
     b'.hash = b.hash ∧ b'.nonce = b.nonce) ∨
  (b'.index = b.index ∧ b'.timestamp ≠ b.timestamp ∧
     b'.transactions = b.transactions ∧ b'.previous_hash = b.previous_hash ∧
     b'.hash = b.hash ∧ b'.nonce = b.nonce) ∨
  (b'.index = b.index ∧ b'.timestamp = b.timestamp ∧
     b'.transactions ≠ b.transactions ∧ b'.previous_hash = b.previous_hash ∧
     b'.hash = b.hash ∧ b'.nonce = b.nonce) ∨
  (b'.index = b.index ∧ b'.timestamp = b.timestamp ∧
     b'.transactions = b.transactions ∧ b'.previous_hash ≠ b.previous_hash ∧
     b'.hash = b.hash ∧ b'.nonce = b.nonce) ∨
  (b'.index = b.index ∧ b'.timestamp = b.timestamp ∧
     b'.transactions = b.transactions ∧ b'.previous_hash = b.previous_hash ∧
     b'.hash ≠ b.hash ∧ b'.nonce = b.nonce) ∨
  (b'.index = b.index ∧ b'.timestamp = b.timestamp ∧
     b'.transactions = b.transactions ∧ b'.previous_hash = b.previous_hash ∧
     b'.hash = b.hash ∧ b'.nonce ≠ b.nonce)

instance (b b' : Block) : Decidable (OneFieldChanged b b') := by
  unfold OneFieldChanged
  infer_instance

/-! Concrete hash instances used to evaluate the theorems on explicit
inputs.  `trivialHash` maps everything to `""` (fine wherever
collision-freeness is not needed); `injHash` below is a provably
collision-free digest built from an injective encoding into `Nat`
followed by a binary rendering. -/

/-- A degenerate block digest: every block hashes to `""`. -/
def trivialHash : HashFn := fun _ _ _ _ _ => ""

/-- A degenerate transaction digest: every transaction id is `""`. -/
def trivialTxHash : TxHashFn := fun _ _ _ => ""

/-- A block digest that is constant in everything but the nonce — used to
exhibit behaviour of `mine_block` on blocks whose stored hash does not
match the recomputed one. -/
def cexHash : HashFn := fun _ _ _ _ _ => "x"

/-- Injective packing of a list of naturals into one natural. -/
def natPairList : List Nat → Nat
  | [] => 0
  | a :: l => Nat.pair a (natPairList l) + 1

/-- Injective encoding of a string. -/
def encString (s : String) : Nat :=
  natPairList (s.data.map Char.toNat)

/-- Injective encoding of an integer. -/
def encInt : Int → Nat
  | .ofNat n => 2 * n
  | .negSucc n => 2 * n + 1

/-- Injective encoding of a rational. -/
def encRat (q : ℚ) : Nat :=
  Nat.pair (encInt q.num) q.den

/-- Injective encoding of a transaction type. -/
def encTxType : TransactionType → Nat
  | .Standard f t a =>
      Nat.pair 0 (natPairList [encString f, encString t, encRat a])
  | .MultiSig f t a r s =>
      Nat.pair 1 (natPairList
        [encString f, encString t, encRat a, r, natPairList (s.map encString)])
  | .TimeLocked f t a u =>
      Nat.pair 2 (natPairList [encString f, encString t, encRat a, u])

/-- Injective encoding of a transaction. -/
def encTransaction (tx : Transaction) : Nat :=
  natPairList [encString tx.id, encTxType tx.tx_type, tx.timestamp, tx.nonce]

/-- Injective encoding of the five block fields fed to the digest. -/
def encBlockData (i t : Nat) (txs : List Transaction) (p : String) (n : Nat) : Nat :=
  natPairList [i, t, natPairList (txs.map encTransaction), encString p, n]

/-- Binary digit list of a natural, least significant first; the first
argument is fuel (taking it equal to the number suffices). -/
def bitsAux : Nat → Nat → List Char
  | 0, _ => []
  | _ + 1, 0 => []
  | fuel + 1, n + 1 =>
      (if (n + 1) % 2 = 1 then '1' else '0') :: bitsAux fuel ((n + 1) / 2)

/-- Value of a binary digit list, least significant first. -/
def unBits : List Char → Nat
  | [] => 0
  | c :: l => (if c = '1' then 1 else 0) + 2 * unBits l

/-- Binary string rendering of a natural number. -/
def natToBits (n : Nat) : String :=
  String.mk (bitsAux n n)

/-- A computable, provably collision-free block digest. -/
def injHash : HashFn := fun i t txs p n =>
  natToBits (encBlockData i t txs p n)

/-! Concrete ledger states used by the evaluation theorems. -/

/-- The genesis transaction as built with the degenerate digests at time 0. -/
def gtxW : Transaction :=
  { id := "", tx_type := .Standard "genesis" "genesis" 0, timestamp := 0, nonce := 0 }

/-- The genesis block as built with the degenerate digests at time 0 and
difficulty 0. -/
def gblkW : Block :=
  { index := 0, timestamp := 0, transactions := [gtxW], previous_hash := "0",
    hash := "", nonce := 0 }

/-- `Blockchain.new trivialHash trivialTxHash 0 0 0`, spelled out. -/
def bcW : Blockchain :=
  { chain := [gblkW], difficulty := 0, pending_transactions := [],
    balances := [], multisig_wallets := [] }

/-- A funding transaction from the sentinel to `"a"`. -/
def txA : Transaction :=
  { id := "", tx_type := .Standard "genesis" "a" 5, timestamp := 0, nonce := 1 }

/-- `bcW` with `txA` pending. -/
def bcP : Blockchain :=
  { bcW with pending_transactions := [txA] }

/-- A Standard transaction with a negative amount whose sender and
recipient coincide. -/
def txNeg : Transaction :=
  { id := "", tx_type := .Standard "a" "a" (-1), timestamp := 0, nonce := 2 }

/-- The ledger state after mining `txNeg` on the fresh ledger `bcW`. -/
def bcNegResult : Blockchain :=
  { chain := [gblkW, Block.new trivialHash 1 [txNeg] "" 0], difficulty := 0,
    pending_transactions := [], balances := [txNeg].foldl applyTx [],
    multisig_wallets := [] }

/-- A Standard transaction with a negative amount whose sender and
recipient differ. -/
def txNeg2 : Transaction :=
  { id := "", tx_type := .Standard "a" "b" (-1), timestamp := 0, nonce := 3 }

/-- The ledger state after mining `txNeg2` on the fresh ledger `bcW`. -/
def bcMinedW : Blockchain :=
  { chain := [gblkW, Block.new trivialHash 1 [txNeg2] "" 0], difficulty := 0,
    pending_transactions := [], balances := [txNeg2].foldl applyTx [],
    multisig_wallets := [] }

/-- A block meant to sit below `blkBT` in a valid two-block chain under
`injHash` (the genesis slot is never re-checked, so its stored hash is
arbitrary). -/
def blkAT : Block :=
  { index := 0, timestamp := 0, transactions := [], previous_hash := "0",
    hash := "", nonce := 0 }

/-- A block whose stored hash is its `injHash` digest and whose
`previous_hash` is `blkAT`'s stored hash. -/
def blkBT : Block :=
  { index := 1, timestamp := 0, transactions := [], previous_hash := "",
    hash := injHash 1 0 [] "" 0, nonce := 0 }

/-- A valid two-block chain under `injHash` at difficulty 0. -/
def bcT : Blockchain :=
  { chain := [blkAT, blkBT], difficulty := 0, pending_transactions := [],
    balances := [], multisig_wallets := [] }

/-- `blkBT` with only its nonce changed. -/
def blkBT' : Block :=
  { blkBT with nonce := 1 }

/-- A block whose stored hash does not match its recomputed `cexHash`
digest. -/
def cexBlock : Block :=
  { index := 0, timestamp := 0, transactions := [], previous_hash := "",
    hash := "", nonce := 0 }

/-! ### Helper lemmas about mining -/

/-- If the stored hash already meets the target, `mine_block` returns the
block unchanged (the loop tests before the first increment). -/
theorem mine_block_of_meets (H : HashFn) (d fuel : Nat) (b : Block)
    (h : hashMeetsDifficulty d b.hash = true) :
    Block.mine_block H d fuel b = some b := by
  rw [Block.mine_block.eq_def]
  simp [h]

/-- At difficulty 0 every hash meets the target. -/
theorem hashMeetsDifficulty_zero (h : String) :
    hashMeetsDifficulty 0 h = true := by
  simp [hashMeetsDifficulty, List.isPrefixOf]

/-- `mine_block` only mutates `nonce` and `hash`. -/
theorem mine_block_preserves (H : HashFn) (d : Nat) :
    ∀ fuel b b', Block.mine_block H d fuel b = some b' →
      b'.index = b.index ∧ b'.timestamp = b.timestamp ∧
      b'.transactions = b.transactions ∧ b'.previous_hash = b.previous_hash := by
  intro fuel
  induction fuel with
  | zero =>
      intro b b' h
      rw [Block.mine_block] at h
      split at h
      · cases h; exact ⟨rfl, rfl, rfl, rfl⟩
      · cases h
  | succ n ih =>
      intro b b' h
      rw [Block.mine_block] at h
      split at h
      · cases h; exact ⟨rfl, rfl, rfl, rfl⟩
      · dsimp only at h
        have hfields := ih _ _ h
        exact hfields

/-- Exit conditions of the mining loop: if the stored hash matched the
recomputed hash on entry, it still does on exit, and the exit hash meets
the difficulty target. -/
theorem mine_block_hash (H : HashFn) (d : Nat) :
    ∀ fuel b b', Block.mine_block H d fuel b = some b' →
      b.hash = b.calculate_hash H →
      b'.hash = b'.calculate_hash H ∧ hashMeetsDifficulty d b'.hash = true := by
  intro fuel
  induction fuel with
  | zero =>
      intro b b' h hinv
      rw [Block.mine_block] at h
      split at h
      · cases h; exact ⟨hinv, by assumption⟩
      · cases h
  | succ n ih =>
      intro b b' h hinv
      rw [Block.mine_block] at h
      split at h
      · cases h; exact ⟨hinv, by assumption⟩
      · dsimp only at h
        have hexit := ih _ _ h rfl
        exact hexit

/-- A block built by `Block.new` always satisfies the stored-hash
invariant. -/
theorem block_new_hash (H : HashFn) (i : Nat) (txs : List Transaction)
    (p : String) (now : Nat) :
    (Block.new H i txs p now).hash = (Block.new H i txs p now).calculate_hash H := rfl

/-- The fields of a block built by `Block.new`. -/
theorem block_new_fields (H : HashFn) (i : Nat) (txs : List Transaction)
    (p : String) (now : Nat) :
    (Block.new H i txs p now).index = i ∧
    (Block.new H i txs p now).timestamp = now ∧
    (Block.new H i txs p now).transactions = txs ∧
    (Block.new H i txs p now).previous_hash = p ∧
    (Block.new H i txs p now).nonce = 0 :=
  ⟨rfl, rfl, rfl, rfl, rfl⟩

/-! ### Helper lemmas about chain verification -/

/-- Appending one block to the scanned suffix adds exactly one check of
the new block against the last block so far. -/
theorem chainChecksFrom_append (H : HashFn) (d : Nat) :
    ∀ (xs : List Block) (p b : Block),
      chainChecksFrom H d p (xs ++ [b]) =
        (chainChecksFrom H d p xs && blockCheck H d (xs.getLastD p) b) := by
  intro xs
  induction xs with
  | nil =>
      intro p b
      simp [chainChecksFrom]
  | cons x rest ih =>
      intro p b
      simp only [List.cons_append, chainChecksFrom, List.append_eq, ih,
        List.getLastD_cons, Bool.and_assoc]

/-- The pairwise scan succeeds iff every position passes its check
against its predecessor. -/
theorem chainChecksFrom_iff (H : HashFn) (d : Nat) :
    ∀ (l : List Block) (p : Block),
      chainChecksFrom H d p l = true ↔
        ∀ i, i < l.length →
          blockCheck H d ((p :: l).getD i default) (l.getD i default) = true := by
  intro l
  induction l with
  | nil =>
      intro p
      simp [chainChecksFrom]
  | cons b rest ih =>
      intro p
      simp only [chainChecksFrom, Bool.and_eq_true, ih]
      constructor
      · rintro ⟨h0, hrest⟩ i hi
        match i with
        | 0 => exact h0
        | j + 1 =>
            simp only [List.getD_cons_succ]
            exact hrest j (Nat.lt_of_succ_lt_succ hi)
      · intro hall
        refine ⟨hall 0 (Nat.succ_pos _), ?_⟩
        intro j hj
        have := hall (j + 1) (Nat.succ_lt_succ hj)
        simpa using this

/-- `is_chain_valid` holds iff every block from index 1 on passes the
three checks against its predecessor. -/
theorem is_chain_valid_iff (H : HashFn) (bc : Blockchain) :
    bc.is_chain_valid H = true ↔
      ∀ i, 1 ≤ i → i < bc.chain.length →
        blockCheck H bc.difficulty
          (bc.chain.getD (i - 1) default) (bc.chain.getD i default) = true := by
  obtain ⟨chain, diff, pend, bal, wall⟩ := bc
  cases chain with
  | nil =>
      constructor
      · intro _ i _ hi
        simp only [List.length_nil] at hi
        omega
      · intro _
        rfl
  | cons g rest =>
      show chainChecksFrom H diff g rest = true ↔ _
      rw [chainChecksFrom_iff]
      constructor
      · intro hall i h1 hi
        obtain ⟨j, rfl⟩ : ∃ j, i = j + 1 := ⟨i - 1, by omega⟩
        simp only [List.length_cons] at hi
        have := hall j (by omega)
        simpa using this
      · intro hall j hj
        have := hall (j + 1) (by omega)
          (by simp only [List.length_cons]; omega)
        simpa using this

/-! ### Structural lemmas about the ledger operations -/

/-- `is_chain_valid` depends only on the chain and the difficulty. -/
theorem is_chain_valid_congr (H : HashFn) (bc bc' : Blockchain)
    (hc : bc'.chain = bc.chain) (hd : bc'.difficulty = bc.difficulty) :
    bc'.is_chain_valid H = bc.is_chain_valid H := by
  unfold Blockchain.is_chain_valid
  rw [hc, hd]

/-- A successful `add_transaction` only appends the transaction to the
pending pool. -/
theorem add_transaction_ok (bc : Blockchain) (tx : Transaction) (now : Nat)
    (bc' : Blockchain) (h : bc.add_transaction tx now = .ok bc') :
    bc' = { bc with pending_transactions := bc.pending_transactions ++ [tx] } := by
  unfold Blockchain.add_transaction at h
  cases hv : tx.is_valid now with
  | error e => rw [hv] at h; cases h
  | ok u =>
      rw [hv] at h
      dsimp only at h
      split at h
      · cases h; rfl
      · split at h
        · cases h
        · cases h; rfl

/-- The two possible results of a terminating
`mine_pending_transactions`: unchanged state (empty pool), or one mined
block appended, pool cleared and balances updated from the mined block. -/
theorem mine_pending_shape (H : HashFn) (fuel now : Nat) (bc bc' : Blockchain)
    (h : bc.mine_pending_transactions H fuel now = some bc') :
    (bc' = bc ∧ bc.pending_transactions = []) ∨
    ∃ tip mined,
      bc.chain.getLast? = some tip ∧
      Block.mine_block H bc.difficulty fuel
        (Block.new H bc.chain.length bc.pending_transactions tip.hash now) = some mined ∧
      bc' = { bc with chain := bc.chain ++ [mined],
                      pending_transactions := [],
                      balances := mined.transactions.foldl applyTx bc.balances } ∧
      bc.pending_transactions ≠ [] := by
  unfold Blockchain.mine_pending_transactions at h
  split at h
  · left
    cases h
    rename_i hemp
    exact ⟨rfl, by simpa [List.isEmpty_iff] using hemp⟩
  · right
    rename_i hne
    cases hlast : bc.chain.getLast? with
    | none => rw [hlast] at h; cases h
    | some tip =>
        rw [hlast] at h
        dsimp only at h
        cases hm : Block.mine_block H bc.difficulty fuel
            (Block.new H bc.chain.length bc.pending_transactions tip.hash now) with
        | none => rw [hm] at h; cases h
        | some mined =>
            rw [hm] at h
            cases h
            refine ⟨tip, mined, ?_, ?_, rfl, ?_⟩
            · simp [hlast]
            · simp [hm]
            · simpa [List.isEmpty_iff] using hne

/-- A terminating `mine_pending_transactions` preserves chain validity. -/
theorem mine_pending_valid (H : HashFn) (fuel now : Nat) (bc bc' : Blockchain)
    (h : bc.mine_pending_transactions H fuel now = some bc')
    (hv : bc.is_chain_valid H = true) :
    bc'.is_chain_valid H = true := by
  rcases mine_pending_shape H fuel now bc bc' h with ⟨rfl, -⟩ | ⟨tip, mined, hlast, hm, rfl, _⟩
  · exact hv
  · have hpres := mine_block_preserves H bc.difficulty fuel _ mined hm
    have hhash := mine_block_hash H bc.difficulty fuel _ mined hm (block_new_hash H _ _ _ _)
    obtain ⟨chain, diff, pend, bal, wall⟩ := bc
    cases chain with
    | nil => cases hlast
    | cons g rest =>
        show chainChecksFrom H diff g (rest ++ [mined]) = true
        rw [chainChecksFrom_append]
        have hv' : chainChecksFrom H diff g rest = true := hv
        rw [hv']
        have htip : tip = rest.getLastD g := by
          rw [List.getLast?_cons] at hlast
          rw [List.getLastD_eq_getLast?]
          exact (Option.some_injective _ hlast).symm
        have hprev : mined.previous_hash = tip.hash := hpres.2.2.2
        simp only [Bool.true_and, blockCheck, Bool.and_eq_true, beq_iff_eq]
        refine ⟨⟨hhash.1, ?_⟩, hhash.2⟩
        rw [hprev, htip]

/-- The result of a successful `Blockchain.new`: a single mined genesis
block and empty pool, balances and wallet registry. -/
theorem blockchain_new_shape (H : HashFn) (HT : TxHashFn)
    (difficulty fuel now : Nat) (bc : Blockchain)
    (h : Blockchain.new H HT difficulty fuel now = some bc) :
    ∃ mined,
      Block.mine_block H difficulty fuel
        (Block.new H 0 [Transaction.new HT (.Standard "genesis" "genesis" 0) 0 now]
          "0" now) = some mined ∧
      bc = { chain := [mined], difficulty := difficulty,
             pending_transactions := [], balances := [], multisig_wallets := [] } := by
  unfold Blockchain.new Blockchain.create_genesis_block at h
  dsimp only at h
  cases hm : Block.mine_block H difficulty fuel
      (Block.new H 0 [Transaction.new HT (.Standard "genesis" "genesis" 0) 0 now]
        "0" now) with
  | none => rw [hm] at h; cases h
  | some mined =>
      rw [hm] at h
      cases h
      exact ⟨mined, rfl, rfl⟩

/-- A chain of length at most one is always valid. -/
theorem is_chain_valid_short (H : HashFn) (bc : Blockchain)
    (h : bc.chain.length ≤ 1) : bc.is_chain_valid H = true := by
  obtain ⟨chain, diff, pend, bal, wall⟩ := bc
  cases chain with
  | nil => rfl
  | cons g rest =>
      cases rest with
      | nil => rfl
      | cons b l => simp at h

/-! ### Helper lemmas about the balance map -/

/-- Pointwise effect of `addToBalance`: the touched entry moves by `d`
(from default 0 when absent), every other entry is unchanged. -/
theorem getBalanceMap_addToBalance :
    ∀ (bal : List (String × ℚ)) (k : String) (d : ℚ) (x : String),
      getBalanceMap (addToBalance bal k d) x =
        if x = k then getBalanceMap bal x + d else getBalanceMap bal x := by
  intro bal k d
  induction bal with
  | nil =>
      intro x
      simp only [addToBalance, getBalanceMap]
      split_ifs with ha hb hc
      · rfl
      · exact absurd ha.symm hb
      · exact absurd hc.symm ha
      · rfl
  | cons kv rest ih =>
      intro x
      obtain ⟨k', v⟩ := kv
      simp only [addToBalance]
      by_cases h1 : k' = k
      · subst h1
        rw [if_pos rfl]
        simp only [getBalanceMap]
        split_ifs with ha hb hc
        · rfl
        · exact absurd ha.symm hb
        · exact absurd hc.symm ha
        · rfl
      · rw [if_neg h1]
        simp only [getBalanceMap, ih]
        split_ifs with ha hb hc
        · exact absurd (ha.trans hb) h1
        · rfl
        · rfl
        · rfl

/-- `addToBalance` changes the total of all balances by exactly `d`. -/
theorem totalBalance_addToBalance :
    ∀ (bal : List (String × ℚ)) (k : String) (d : ℚ),
      totalBalance (addToBalance bal k d) = totalBalance bal + d := by
  intro bal k d
  induction bal with
  | nil => simp [addToBalance, totalBalance]
  | cons kv rest ih =>
      obtain ⟨k', v⟩ := kv
      by_cases h : k' = k
      · simp only [addToBalance, if_pos h, totalBalance, List.map_cons, List.sum_cons]
        ring
      · simp only [addToBalance, if_neg h, totalBalance, List.map_cons, List.sum_cons]
        simp only [totalBalance] at ih
        rw [ih]
        ring

/-- One transaction's balance effect changes the total of all balances
by its amount when the sender is the sentinel, and by zero otherwise. -/
theorem totalBalance_applyTx (bal : List (String × ℚ)) (tx : Transaction) :
    totalBalance (applyTx bal tx) =
      totalBalance bal +
        (if tx.tx_type.fromAddr = "genesis" then tx.tx_type.amount else 0) := by
  unfold applyTx
  by_cases h : tx.tx_type.fromAddr = "genesis"
  · simp [h, totalBalance_addToBalance]
  · simp only [if_neg h, totalBalance_addToBalance]
    ring

/-- Folding a list of balance effects changes the total of all balances
by exactly the sentinel-funded total of the list. -/
theorem totalBalance_foldl :
    ∀ (txs : List Transaction) (bal : List (String × ℚ)),
      totalBalance (txs.foldl applyTx bal) = totalBalance bal + genesisTotal txs := by
  intro txs
  induction txs with
  | nil =>
      intro bal
      simp [genesisTotal]
  | cons tx rest ih =>
      intro bal
      simp only [List.foldl_cons, ih, totalBalance_applyTx, genesisTotal,
        List.map_cons, List.sum_cons]
      ring

/-! ### Claim theorems -/

/-- C1: every ledger state reachable through `Blockchain::new` followed by
successful `add_transaction`, terminating `mine_pending_transactions` and
`create_multisig_wallet` calls has `is_chain_valid = true` and a
non-empty chain (so the `unwrap` in `mine_pending_transactions` cannot
panic), and each operation leaves the existing blocks unchanged,
appending at most one new block at the tail. -/
theorem reachable_chain_integrity (H : HashFn) (HT : TxHashFn)
    (bc : Blockchain) (hr : Reachable H HT bc) :
    bc.is_chain_valid H = true ∧ 1 ≤ bc.chain.length ∧
    (∀ tx now bc', bc.add_transaction tx now = .ok bc' → bc'.chain = bc.chain) ∧
    (∀ w s, (bc.create_multisig_wallet w s).chain = bc.chain) ∧
    (∀ fuel now bc', bc.mine_pending_transactions H fuel now = some bc' →
        bc'.chain = bc.chain ∨ ∃ b, bc'.chain = bc.chain ++ [b]) := by
  have hmain : bc.is_chain_valid H = true ∧ 1 ≤ bc.chain.length := by
    induction hr with
    | base d fuel now bc0 h =>
        obtain ⟨mined, hm, rfl⟩ := blockchain_new_shape H HT d fuel now bc0 h
        exact ⟨is_chain_valid_short H _ (by simp), by simp⟩
    | add bc0 bc' tx now hr0 h ih =>
        rw [add_transaction_ok bc0 tx now bc' h]
        exact ⟨(is_chain_valid_congr H bc0
          { bc0 with pending_transactions := bc0.pending_transactions ++ [tx] }
          rfl rfl).trans ih.1, ih.2⟩
    | mine bc0 bc' fuel now hr0 h ih =>
        refine ⟨mine_pending_valid H fuel now bc0 bc' h ih.1, ?_⟩
        rcases mine_pending_shape H fuel now bc0 bc' h with ⟨rfl, -⟩ |
          ⟨tip, mined, -, -, rfl, -⟩
        · exact ih.2
        · have : bc0.chain.length ≤ (bc0.chain ++ [mined]).length := by
            simp [List.length_append]
          exact le_trans ih.2 this
    | register bc0 w s hr0 ih =>
        exact ⟨(is_chain_valid_congr H bc0
          (bc0.create_multisig_wallet w s) rfl rfl).trans ih.1, ih.2⟩
  refine ⟨hmain.1, hmain.2, ?_, ?_, ?_⟩
  · intro tx now bc' h
    rw [add_transaction_ok bc tx now bc' h]
  · intro w s
    rfl
  · intro fuel now bc' h
    rcases mine_pending_shape H fuel now bc bc' h with ⟨rfl, -⟩ |
      ⟨tip, mined, -, -, rfl, -⟩
    · exact Or.inl rfl
    · exact Or.inr ⟨mined, rfl⟩

/-- Evaluation of C1 on the concrete ledger `bcW`, reachable from
`Blockchain.new trivialHash trivialTxHash 0 0 0`. -/
theorem reachable_chain_integrity_witness :
    bcW.is_chain_valid trivialHash = true ∧ 1 ≤ bcW.chain.length := by
  have h := reachable_chain_integrity trivialHash trivialTxHash bcW
    (Reachable.base 0 0 0 bcW (by decide))
  exact ⟨h.1, h.2.1⟩

/-- C2: `add_transaction` propagates validation errors unchanged; for a
valid transaction from the `"genesis"` sentinel it always appends to the
pool; for any other sender it appends iff the sender's current balance
(default 0) is at least the amount, failing with `InsufficientBalance`
carrying that address and balance otherwise.  Success changes only the
pending pool, failure changes nothing. -/
theorem add_transaction_spec (bc : Blockchain) (tx : Transaction) (now : Nat) :
    (∀ e, tx.is_valid now = .error e → bc.add_transaction tx now = .error e) ∧
    (tx.is_valid now = .ok () →
      (tx.tx_type.fromAddr = "genesis" →
         bc.add_transaction tx now =
           .ok { bc with pending_transactions := bc.pending_transactions ++ [tx] }) ∧
      (tx.tx_type.fromAddr ≠ "genesis" →
         (getBalanceMap bc.balances tx.tx_type.fromAddr < tx.tx_type.amount →
            bc.add_transaction tx now =
              .error (.InsufficientBalance tx.tx_type.fromAddr
                (getBalanceMap bc.balances tx.tx_type.fromAddr))) ∧
         (tx.tx_type.amount ≤ getBalanceMap bc.balances tx.tx_type.fromAddr →
            bc.add_transaction tx now =
              .ok { bc with pending_transactions := bc.pending_transactions ++ [tx] }))) := by
  constructor
  · intro e he
    unfold Blockchain.add_transaction
    rw [he]
  · intro hok
    unfold Blockchain.add_transaction
    rw [hok]
    dsimp only
    constructor
    · intro hg
      rw [if_pos hg]
    · intro hg
      refine ⟨?_, ?_⟩
      · intro hlt
        rw [if_neg hg, if_pos hlt]
      · intro hge
        rw [if_neg hg, if_neg (not_lt.mpr hge)]

/-- Evaluation of C2: submitting the funding transaction `txA` to the
fresh ledger `bcW` appends it to the pool. -/
theorem add_transaction_spec_witness :
    bcW.add_transaction txA 0 =
      .ok { bcW with pending_transactions := bcW.pending_transactions ++ [txA] } :=
  ((add_transaction_spec bcW txA 0).2 (by decide)).1 (by decide)

/-- C3: `mine_pending_transactions` is a no-op on an empty pool;
otherwise, whenever the proof-of-work search terminates, the mined block
has index equal to the old chain length, `previous_hash` equal to the old
tip's stored hash and the old pool (in FIFO order) as its transactions,
meets the ledger's difficulty, and the call appends exactly that block,
applies the pool's balance effects in order and clears the pool. -/
theorem mine_pending_transactions_spec (H : HashFn) (fuel now : Nat)
    (bc : Blockchain) :
    (bc.pending_transactions = [] →
       bc.mine_pending_transactions H fuel now = some bc) ∧
    (∀ tip mined,
       bc.pending_transactions ≠ [] →
       bc.chain.getLast? = some tip →
       Block.mine_block H bc.difficulty fuel
         (Block.new H bc.chain.length bc.pending_transactions tip.hash now) =
           some mined →
       mined.index = bc.chain.length ∧
       mined.previous_hash = tip.hash ∧
       mined.transactions = bc.pending_transactions ∧
       hashMeetsDifficulty bc.difficulty mined.hash = true ∧
       bc.mine_pending_transactions H fuel now =
         some { bc with chain := bc.chain ++ [mined],
                        pending_transactions := [],
                        balances := bc.pending_transactions.foldl applyTx bc.balances }) := by
  constructor
  · intro hemp
    unfold Blockchain.mine_pending_transactions
    rw [if_pos (by simp [hemp])]
  · intro tip mined hne hlast hm
    have hpres := mine_block_preserves H bc.difficulty fuel _ mined hm
    have hhash := mine_block_hash H bc.difficulty fuel _ mined hm
      (block_new_hash H _ _ _ _)
    refine ⟨hpres.1, hpres.2.2.2, hpres.2.2.1, hhash.2, ?_⟩
    unfold Blockchain.mine_pending_transactions
    rw [if_neg (by simp [List.isEmpty_iff, hne]), hlast]
    dsimp only
    rw [hm]
    dsimp only
    rw [hpres.2.2.1]
    rfl

/-- Evaluation of C3 on the concrete ledger `bcP` (one pending funding
transaction) at difficulty 0. -/
theorem mine_pending_transactions_spec_witness :
    bcP.mine_pending_transactions trivialHash 0 0 =
      some { bcP with chain := bcP.chain ++ [Block.new trivialHash 1 [txA] "" 0],
                      pending_transactions := [],
                      balances := bcP.pending_transactions.foldl applyTx bcP.balances } :=
  ((mine_pending_transactions_spec trivialHash 0 0 bcP).2 gblkW
    (Block.new trivialHash 1 [txA] "" 0) (by decide) (by decide) (by decide)).2.2.2.2

/-- C4: `Transaction::is_valid` accepts every Standard transaction,
accepts a MultiSig transaction iff it carries at least
`required_signatures` signatures (reporting the required and provided
counts otherwise), accepts a TimeLocked transaction iff the current time
has reached `unlock_time` (reporting the unlock time otherwise), and
`add_transaction` propagates any such error before any balance check. -/
theorem is_valid_spec :
    (∀ i f t a ts n now,
       (Transaction.mk i (.Standard f t a) ts n).is_valid now = .ok ()) ∧
    (∀ i f t a r s ts n now,
       ((Transaction.mk i (.MultiSig f t a r s) ts n).is_valid now = .ok () ↔
          r ≤ s.length) ∧
       (s.length < r →
          (Transaction.mk i (.MultiSig f t a r s) ts n).is_valid now =
            .error (.InsufficientSignatures r s.length))) ∧
    (∀ i f t a u ts n now,
       ((Transaction.mk i (.TimeLocked f t a u) ts n).is_valid now = .ok () ↔
          u ≤ now) ∧
       (now < u →
          (Transaction.mk i (.TimeLocked f t a u) ts n).is_valid now =
            .error (.StillLocked u))) ∧
    (∀ (tx : Transaction) (now : Nat) (e : LedgerError) (bc : Blockchain),
       tx.is_valid now = .error e → bc.add_transaction tx now = .error e) := by
  refine ⟨?_, ?_, ?_, ?_⟩
  · intro i f t a ts n now
    rfl
  · intro i f t a r s ts n now
    unfold Transaction.is_valid
    dsimp only
    constructor
    · split_ifs with h
      · constructor
        · intro hh
          cases hh
        · intro hh
          omega
      · simp only [true_iff]
        omega
    · intro hlt
      rw [if_pos hlt]
  · intro i f t a u ts n now
    unfold Transaction.is_valid
    dsimp only
    constructor
    · split_ifs with h
      · constructor
        · intro hh
          cases hh
        · intro hh
          omega
      · simp only [true_iff]
        omega
    · intro hlt
      rw [if_pos hlt]
  · intro tx now e bc he
    unfold Blockchain.add_transaction
    rw [he]

/-- Evaluation of C4: a 2-of-`required` MultiSig transaction with one
signature is rejected with the required and provided counts. -/
theorem is_valid_spec_witness :
    (Transaction.mk "" (.MultiSig "v" "d" 5 2 ["A"]) 0 3).is_valid 0 =
      .error (.InsufficientSignatures 2 1) :=
  (is_valid_spec.2.1 "" "v" "d" 5 2 ["A"] 0 3 0).2 (by decide)

/-- C5: `is_chain_valid` returns true iff every block from index 1 to
the end passes all three checks (stored hash equals recomputed hash,
`previous_hash` equals the predecessor's stored hash, stored hash meets
the difficulty), and a chain of length one — whatever its genesis block
contains — always validates. -/
theorem is_chain_valid_iff_checks (H : HashFn) (bc : Blockchain) :
    (bc.is_chain_valid H = true ↔
      ∀ i, 1 ≤ i → i < bc.chain.length →
        (bc.chain.getD i default).hash =
            (bc.chain.getD i default).calculate_hash H ∧
        (bc.chain.getD i default).previous_hash =
            (bc.chain.getD (i - 1) default).hash ∧
        hashMeetsDifficulty bc.difficulty (bc.chain.getD i default).hash = true) ∧
    (bc.chain.length = 1 → bc.is_chain_valid H = true) := by
  have hb : ∀ prev b : Block, blockCheck H bc.difficulty prev b = true ↔
      (b.hash = b.calculate_hash H ∧ b.previous_hash = prev.hash ∧
        hashMeetsDifficulty bc.difficulty b.hash = true) := by
    intro prev b
    simp [blockCheck, Bool.and_eq_true, beq_iff_eq, and_assoc]
  constructor
  · rw [is_chain_valid_iff]
    constructor
    · intro hall i h1 hi
      exact (hb _ _).1 (hall i h1 hi)
    · intro hall i h1 hi
      exact (hb _ _).2 (hall i h1 hi)
  · intro h
    exact is_chain_valid_short H bc (le_of_eq h)

/-- Evaluation of C5: the single-block ledger `bcW` validates. -/
theorem is_chain_valid_iff_checks_witness :
    bcW.is_chain_valid trivialHash = true :=
  (is_chain_valid_iff_checks trivialHash bcW).2 (by decide)

/-- C6 (amended): for a block whose stored hash matches its recomputed
hash on entry — as every block built by `Block::new` does — whenever
`mine_block(d)` terminates, the stored hash equals the recomputed hash of
the final fields and meets the difficulty target; only `nonce` and `hash`
are mutated, and at difficulty 0 the block is returned unchanged (the
loop tests the target before the first increment). -/
theorem mine_block_postcondition (H : HashFn) (d fuel : Nat) (b b' : Block)
    (hinv : b.hash = b.calculate_hash H)
    (h : Block.mine_block H d fuel b = some b') :
    b'.hash = b'.calculate_hash H ∧
    hashMeetsDifficulty d b'.hash = true ∧
    b'.index = b.index ∧ b'.timestamp = b.timestamp ∧
    b'.transactions = b.transactions ∧ b'.previous_hash = b.previous_hash ∧
    (d = 0 → b' = b) := by
  have hpres := mine_block_preserves H d fuel b b' h
  have hhash := mine_block_hash H d fuel b b' h hinv
  refine ⟨hhash.1, hhash.2, hpres.1, hpres.2.1, hpres.2.2.1, hpres.2.2.2, ?_⟩
  intro hd
  subst hd
  rw [mine_block_of_meets H 0 fuel b (hashMeetsDifficulty_zero _)] at h
  exact (Option.some_injective _ h).symm

/-- Evaluation of C6 on the genesis block `gblkW` at difficulty 0. -/
theorem mine_block_postcondition_witness :
    gblkW.hash = gblkW.calculate_hash trivialHash ∧
    hashMeetsDifficulty 0 gblkW.hash = true ∧
    gblkW.index = gblkW.index ∧ gblkW.timestamp = gblkW.timestamp ∧
    gblkW.transactions = gblkW.transactions ∧
    gblkW.previous_hash = gblkW.previous_hash ∧
    (0 = 0 → gblkW = gblkW) :=
  mine_block_postcondition trivialHash 0 0 gblkW gblkW (by decide) (by decide)

/-- C6 as stated is false for a block whose stored hash does not match
its recomputed hash: at difficulty 0 the loop exits immediately and
returns the block with the stale stored hash. -/
theorem mine_block_claim_counterexample :
    Block.mine_block cexHash 0 0 cexBlock = some cexBlock ∧
    cexBlock.hash ≠ cexBlock.calculate_hash cexHash := by
  constructor
  · decide
  · decide

/-- C7: a successful `Blockchain::new(d)` produces a ledger whose chain
is exactly one block — index 0, `previous_hash` the sentinel `"0"`, a
hash meeting difficulty `d`, and a single zero-amount Standard
transaction from the sentinel sender to itself — with empty pool,
balances and wallet registry, and `is_chain_valid` returns true. -/
theorem blockchain_new_spec (H : HashFn) (HT : TxHashFn)
    (difficulty fuel now : Nat) (bc : Blockchain)
    (h : Blockchain.new H HT difficulty fuel now = some bc) :
    bc.difficulty = difficulty ∧
    bc.pending_transactions = [] ∧ bc.balances = [] ∧
    bc.multisig_wallets = [] ∧
    bc.chain.length = 1 ∧
    (∀ g, g ∈ bc.chain →
       g.index = 0 ∧ g.previous_hash = "0" ∧
       hashMeetsDifficulty difficulty g.hash = true ∧
       g.hash = g.calculate_hash H ∧
       g.transactions =
         [Transaction.new HT (.Standard "genesis" "genesis" 0) 0 now]) ∧
    bc.is_chain_valid H = true := by
  obtain ⟨mined, hm, rfl⟩ := blockchain_new_shape H HT difficulty fuel now bc h
  have hpres := mine_block_preserves H difficulty fuel _ mined hm
  have hhash := mine_block_hash H difficulty fuel _ mined hm
    (block_new_hash H _ _ _ _)
  refine ⟨rfl, rfl, rfl, rfl, rfl, ?_, ?_⟩
  · intro g hg
    have hg' : g ∈ [mined] := hg
    rw [List.mem_singleton] at hg'
    subst hg'
    exact ⟨hpres.1, hpres.2.2.2, hhash.2, hhash.1, hpres.2.2.1⟩
  · exact is_chain_valid_short H _ (by simp)

/-- Evaluation of C7 on `Blockchain.new trivialHash trivialTxHash 0 0 0`. -/
theorem blockchain_new_spec_witness :
    bcW.chain.length = 1 ∧ bcW.is_chain_valid trivialHash = true := by
  have h := blockchain_new_spec trivialHash trivialTxHash 0 0 0 bcW (by decide)
  exact ⟨h.2.2.2.2.1, h.2.2.2.2.2.2⟩

/-- C8: mining a non-empty pool changes the sum of all balances by
exactly the total amount of pool transactions whose sender is the
`"genesis"` sentinel — in particular the sum is unchanged when no pool
transaction is sentinel-funded, i.e. every non-sentinel debit is matched
by an equal credit. -/
theorem mine_conservation (H : HashFn) (fuel now : Nat) (bc bc' : Blockchain)
    (hne : bc.pending_transactions ≠ [])
    (h : bc.mine_pending_transactions H fuel now = some bc') :
    totalBalance bc'.balances =
      totalBalance bc.balances + genesisTotal bc.pending_transactions ∧
    ((∀ tx ∈ bc.pending_transactions, tx.tx_type.fromAddr ≠ "genesis") →
       totalBalance bc'.balances = totalBalance bc.balances) := by
  rcases mine_pending_shape H fuel now bc bc' h with ⟨-, hemp⟩ |
    ⟨tip, mined, -, hm, rfl, -⟩
  · exact absurd hemp hne
  · have hpres := mine_block_preserves H bc.difficulty fuel _ mined hm
    have htxs : mined.transactions = bc.pending_transactions := hpres.2.2.1
    have hmain : totalBalance
        (List.foldl applyTx bc.balances mined.transactions) =
        totalBalance bc.balances + genesisTotal bc.pending_transactions := by
      rw [htxs, totalBalance_foldl]
    refine ⟨hmain, ?_⟩
    intro hng
    rw [hmain]
    have hzero : genesisTotal bc.pending_transactions = 0 := by
      unfold genesisTotal
      apply List.sum_eq_zero
      intro x hx
      rw [List.mem_map] at hx
      obtain ⟨tx, htx, rfl⟩ := hx
      rw [if_neg (hng tx htx)]
    rw [hzero, add_zero]

/-- Evaluation of C8: mining the single sentinel-funded transaction
`txA` raises the balance total from 0 to 5. -/
theorem mine_conservation_witness :
    totalBalance
      ({ bcP with chain := bcP.chain ++ [Block.new trivialHash 1 [txA] "" 0],
                  pending_transactions := [],
                  balances := bcP.pending_transactions.foldl applyTx bcP.balances } :
        Blockchain).balances =
      totalBalance bcP.balances + genesisTotal bcP.pending_transactions :=
  (mine_conservation trivialHash 0 0 bcP _ (by decide) rfl).1

/-! ### Injectivity of the concrete digest `injHash` -/

/-- `natPairList` is injective. -/
theorem natPairList_injective :
    ∀ {l1 l2 : List Nat}, natPairList l1 = natPairList l2 → l1 = l2 := by
  intro l1
  induction l1 with
  | nil =>
      intro l2 h
      cases l2 with
      | nil => rfl
      | cons b t => simp [natPairList] at h
  | cons a t ih =>
      intro l2 h
      cases l2 with
      | nil => simp [natPairList] at h
      | cons b t' =>
          simp only [natPairList, Nat.add_right_cancel_iff] at h
          obtain ⟨h1, h2⟩ := Nat.pair_eq_pair.mp h
          rw [h1, ih h2]

/-- `Char.toNat` is injective. -/
theorem char_toNat_injective : Function.Injective Char.toNat := by
  intro c d h
  exact Char.ext (UInt32.ext h)

/-- `encString` is injective. -/
theorem encString_injective : Function.Injective encString := by
  intro s t h
  unfold encString at h
  have h2 := natPairList_injective h
  have h3 := List.map_injective_iff.mpr char_toNat_injective h2
  exact String.ext h3

/-- `encInt` is injective. -/
theorem encInt_injective : Function.Injective encInt := by
  intro a b h
  cases a with
  | ofNat m =>
      cases b with
      | ofNat n =>
          simp only [encInt] at h
          have : m = n := by omega
          rw [this]
      | negSucc n =>
          simp only [encInt] at h
          exact absurd h (by omega)
  | negSucc m =>
      cases b with
      | ofNat n =>
          simp only [encInt] at h
          exact absurd h (by omega)
      | negSucc n =>
          simp only [encInt] at h
          have : m = n := by omega
          rw [this]

/-- `encRat` is injective. -/
theorem encRat_injective : Function.Injective encRat := by
  intro p q h
  unfold encRat at h
  obtain ⟨h1, h2⟩ := Nat.pair_eq_pair.mp h
  exact Rat.ext (encInt_injective h1) h2

/-- `encTxType` is injective. -/
theorem encTxType_injective : Function.Injective encTxType := by
  intro x y h
  cases x with
  | Standard f1 t1 a1 =>
      cases y with
      | Standard f2 t2 a2 =>
          simp only [encTxType] at h
          obtain ⟨-, hl⟩ := Nat.pair_eq_pair.mp h
          have hc := natPairList_injective hl
          simp only [List.cons.injEq, and_true] at hc
          obtain ⟨hf, ht, ha⟩ := hc
          rw [encString_injective hf, encString_injective ht,
            encRat_injective ha]
      | MultiSig f2 t2 a2 r2 s2 =>
          simp only [encTxType] at h
          obtain ⟨h0, -⟩ := Nat.pair_eq_pair.mp h
          exact absurd h0 (by omega)
      | TimeLocked f2 t2 a2 u2 =>
          simp only [encTxType] at h
          obtain ⟨h0, -⟩ := Nat.pair_eq_pair.mp h
          exact absurd h0 (by omega)
  | MultiSig f1 t1 a1 r1 s1 =>
      cases y with
      | Standard f2 t2 a2 =>
          simp only [encTxType] at h
          obtain ⟨h0, -⟩ := Nat.pair_eq_pair.mp h
          exact absurd h0 (by omega)
      | MultiSig f2 t2 a2 r2 s2 =>
          simp only [encTxType] at h
          obtain ⟨-, hl⟩ := Nat.pair_eq_pair.mp h
          have hc := natPairList_injective hl
          simp only [List.cons.injEq, and_true] at hc
          obtain ⟨hf, ht, ha, hr, hs⟩ := hc
          have hs2 := List.map_injective_iff.mpr encString_injective
            (natPairList_injective hs)
          rw [encString_injective hf, encString_injective ht,
            encRat_injective ha, hr, hs2]
      | TimeLocked f2 t2 a2 u2 =>
          simp only [encTxType] at h
          obtain ⟨h0, -⟩ := Nat.pair_eq_pair.mp h
          exact absurd h0 (by omega)
  | TimeLocked f1 t1 a1 u1 =>
      cases y with
      | Standard f2 t2 a2 =>
          simp only [encTxType] at h
          obtain ⟨h0, -⟩ := Nat.pair_eq_pair.mp h
          exact absurd h0 (by omega)
      | MultiSig f2 t2 a2 r2 s2 =>
          simp only [encTxType] at h
          obtain ⟨h0, -⟩ := Nat.pair_eq_pair.mp h
          exact absurd h0 (by omega)
      | TimeLocked f2 t2 a2 u2 =>
          simp only [encTxType] at h
          obtain ⟨-, hl⟩ := Nat.pair_eq_pair.mp h
          have hc := natPairList_injective hl
          simp only [List.cons.injEq, and_true] at hc
          obtain ⟨hf, ht, ha, hu⟩ := hc
          rw [encString_injective hf, encString_injective ht,
            encRat_injective ha, hu]

/-- `encTransaction` is injective. -/
theorem encTransaction_injective : Function.Injective encTransaction := by
  intro tx1 tx2 h
  unfold encTransaction at h
  have hl := natPairList_injective h
  simp only [List.cons.injEq, and_true] at hl
  obtain ⟨hid, hty, hts, hn⟩ := hl
  obtain ⟨i1, t1, s1, n1⟩ := tx1
  obtain ⟨i2, t2, s2, n2⟩ := tx2
  simp only [Transaction.mk.injEq]
  exact ⟨encString_injective hid, encTxType_injective hty, hts, hn⟩

/-- Reading back the binary digits recovers the number. -/
theorem unBits_bitsAux : ∀ fuel n, n ≤ fuel → unBits (bitsAux fuel n) = n := by
  intro fuel
  induction fuel with
  | zero =>
      intro n hn
      interval_cases n
      rfl
  | succ m ih =>
      intro n hn
      cases n with
      | zero => rfl
      | succ k =>
          have hdiv : (k + 1) / 2 ≤ m := by omega
          simp only [bitsAux, unBits, ih _ hdiv]
          by_cases hpar : (k + 1) % 2 = 1
          · rw [if_pos hpar, if_pos rfl]
            omega
          · rw [if_neg hpar, if_neg (by decide)]
            omega

/-- `natToBits` is injective. -/
theorem natToBits_injective : Function.Injective natToBits := by
  intro a b h
  unfold natToBits at h
  have hdata : bitsAux a a = bitsAux b b := congrArg String.data h
  have ha := unBits_bitsAux a a le_rfl
  have hb := unBits_bitsAux b b le_rfl
  rw [← ha, ← hb, hdata]

/-- `injHash` is a collision-free block digest. -/
theorem injHash_injective : HashInjective injHash := by
  intro i1 t1 txs1 p1 n1 i2 t2 txs2 p2 n2 h
  unfold injHash at h
  have henc := natToBits_injective h
  unfold encBlockData at henc
  have hl := natPairList_injective henc
  simp only [List.cons.injEq, and_true] at hl
  obtain ⟨hi, ht, htxs, hp, hn⟩ := hl
  have htxs' := natPairList_injective htxs
  have htxs'' := List.map_injective_iff.mpr encTransaction_injective htxs'
  exact ⟨hi, ht, htxs'', encString_injective hp, hn⟩

/-- C9: starting from any valid chain and assuming the digest is
collision-free, changing any single field of any block at index `i ≥ 1`
to a different value — without recomputing the stored hash — makes
`is_chain_valid` return false. -/
theorem tamper_detection (H : HashFn) (bc : Blockchain) (i : Nat) (b' : Block)
    (hinj : HashInjective H)
    (hvalid : bc.is_chain_valid H = true)
    (h1 : 1 ≤ i) (hi : i < bc.chain.length)
    (hch : OneFieldChanged (bc.chain.getD i default) b') :
    Blockchain.is_chain_valid H { bc with chain := bc.chain.set i b' } = false := by
  have hold := (is_chain_valid_iff H bc).1 hvalid i h1 hi
  have holdhash : (bc.chain.getD i default).hash =
      (bc.chain.getD i default).calculate_hash H := by
    simp only [blockCheck, Bool.and_eq_true, beq_iff_eq] at hold
    exact hold.1.1
  cases hres : Blockchain.is_chain_valid H { bc with chain := bc.chain.set i b' } with
  | false => rfl
  | true =>
      exfalso
      have hlen : i <
          ({ bc with chain := bc.chain.set i b' } : Blockchain).chain.length := by
        simpa [List.length_set] using hi
      have hnew := (is_chain_valid_iff H _).1 hres i h1 hlen
      have hget : ({ bc with chain := bc.chain.set i b' } : Blockchain).chain.getD
          i default = b' := by
        dsimp only
        rw [List.getD_eq_getElem?_getD, List.getElem?_set_self hi]
        rfl
      rw [hget] at hnew
      have hnewhash : b'.hash = b'.calculate_hash H := by
        simp only [blockCheck, Bool.and_eq_true, beq_iff_eq] at hnew
        exact hnew.1.1
      rcases hch with ⟨hd, e2, e3, e4, ehash, e6⟩ | ⟨e1, hd, e3, e4, ehash, e6⟩ |
        ⟨e1, e2, hd, e4, ehash, e6⟩ | ⟨e1, e2, e3, hd, ehash, e6⟩ |
        ⟨e1, e2, e3, e4, hd, e6⟩ | ⟨e1, e2, e3, e4, ehash, hd⟩
      · have hcalc : b'.calculate_hash H =
            (bc.chain.getD i default).calculate_hash H := by
          rw [← hnewhash, ehash, holdhash]
        have hcalc' : H b'.index b'.timestamp b'.transactions b'.previous_hash
            b'.nonce = H (bc.chain.getD i default).index
              (bc.chain.getD i default).timestamp
              (bc.chain.getD i default).transactions
              (bc.chain.getD i default).previous_hash
              (bc.chain.getD i default).nonce := hcalc
        exact hd (hinj _ _ _ _ _ _ _ _ _ _ hcalc').1
      · have hcalc : b'.calculate_hash H =
            (bc.chain.getD i default).calculate_hash H := by
          rw [← hnewhash, ehash, holdhash]
        have hcalc' : H b'.index b'.timestamp b'.transactions b'.previous_hash
            b'.nonce = H (bc.chain.getD i default).index
              (bc.chain.getD i default).timestamp
              (bc.chain.getD i default).transactions
              (bc.chain.getD i default).previous_hash
              (bc.chain.getD i default).nonce := hcalc
        exact hd (hinj _ _ _ _ _ _ _ _ _ _ hcalc').2.1
      · have hcalc : b'.calculate_hash H =
            (bc.chain.getD i default).calculate_hash H := by
          rw [← hnewhash, ehash, holdhash]
        have hcalc' : H b'.index b'.timestamp b'.transactions b'.previous_hash
            b'.nonce = H (bc.chain.getD i default).index
              (bc.chain.getD i default).timestamp
              (bc.chain.getD i default).transactions
              (bc.chain.getD i default).previous_hash
              (bc.chain.getD i default).nonce := hcalc
        exact hd (hinj _ _ _ _ _ _ _ _ _ _ hcalc').2.2.1
      · have hcalc : b'.calculate_hash H =
            (bc.chain.getD i default).calculate_hash H := by
          rw [← hnewhash, ehash, holdhash]
        have hcalc' : H b'.index b'.timestamp b'.transactions b'.previous_hash
            b'.nonce = H (bc.chain.getD i default).index
              (bc.chain.getD i default).timestamp
              (bc.chain.getD i default).transactions
              (bc.chain.getD i default).previous_hash
              (bc.chain.getD i default).nonce := hcalc
        exact hd (hinj _ _ _ _ _ _ _ _ _ _ hcalc').2.2.2.1
      · have hcalc : b'.calculate_hash H =
            (bc.chain.getD i default).calculate_hash H := by
          unfold Block.calculate_hash
          rw [e1, e2, e3, e4, e6]
        exact hd (hnewhash.trans (hcalc.trans holdhash.symm))
      · have hcalc : b'.calculate_hash H =
            (bc.chain.getD i default).calculate_hash H := by
          rw [← hnewhash, ehash, holdhash]
        have hcalc' : H b'.index b'.timestamp b'.transactions b'.previous_hash
            b'.nonce = H (bc.chain.getD i default).index
              (bc.chain.getD i default).timestamp
              (bc.chain.getD i default).transactions
              (bc.chain.getD i default).previous_hash
              (bc.chain.getD i default).nonce := hcalc
        exact hd (hinj _ _ _ _ _ _ _ _ _ _ hcalc').2.2.2.2

/-- Evaluation of C9: the concrete two-block chain `bcT` is valid under
the collision-free digest `injHash`, and bumping the nonce of its second
block invalidates it. -/
theorem tamper_detection_witness :
    bcT.is_chain_valid injHash = true ∧
    Blockchain.is_chain_valid injHash
      { bcT with chain := bcT.chain.set 1 blkBT' } = false := by
  constructor
  · decide
  · exact tamper_detection injHash bcT 1 blkBT' injHash_injective (by decide)
      (by decide) (by decide) (by decide)

/-- C10 (amended): `add_transaction` performs no non-negativity check,
so a Standard transaction with a negative amount from a non-sentinel
sender whose balance is at least that (negative) amount is admitted to
the pool; mining a pool consisting of that transaction alone then
increases the sender's balance by `|amount|` and — provided the
recipient differs from the sender — decreases the recipient's balance by
`|amount|`. -/
theorem negative_amount_admitted (H : HashFn) (bc : Blockchain)
    (tx : Transaction) (now fuel now' : Nat) (f t : String) (a : ℚ)
    (htx : tx.tx_type = .Standard f t a) (ha : a < 0) (hf : f ≠ "genesis")
    (hft : f ≠ t) (hpool : bc.pending_transactions = [])
    (hbal : a ≤ getBalanceMap bc.balances f) :
    bc.add_transaction tx now =
      .ok { bc with pending_transactions := bc.pending_transactions ++ [tx] } ∧
    (∀ bc', Blockchain.mine_pending_transactions H fuel now'
        { bc with pending_transactions := bc.pending_transactions ++ [tx] } =
          some bc' →
      bc'.get_balance f = bc.get_balance f + |a| ∧
      bc'.get_balance t = bc.get_balance t - |a|) := by
  have hvalid : tx.is_valid now = .ok () := by
    unfold Transaction.is_valid
    rw [htx]
  have hfrom : tx.tx_type.fromAddr = f := by rw [htx]; rfl
  have hto : tx.tx_type.toAddr = t := by rw [htx]; rfl
  have hamount : tx.tx_type.amount = a := by rw [htx]; rfl
  constructor
  · unfold Blockchain.add_transaction
    rw [hvalid]
    dsimp only
    rw [hfrom, hamount, if_neg hf, if_neg (not_lt.mpr hbal)]
  · intro bc' hm
    rcases mine_pending_shape H fuel now' _ bc' hm with ⟨rfl, hemp⟩ |
      ⟨tip, mined, -, hmm, rfl, -⟩
    · exfalso
      simp only [hpool] at hemp
      simp at hemp
    · have hpres := mine_block_preserves H _ fuel _ mined hmm
      have htxs : mined.transactions =
          ({ bc with pending_transactions := bc.pending_transactions ++ [tx] } :
            Blockchain).pending_transactions := hpres.2.2.1
      unfold Blockchain.get_balance
      dsimp only
      rw [htxs]
      dsimp only
      rw [hpool]
      simp only [List.nil_append, List.foldl_cons, List.foldl_nil]
      unfold applyTx
      dsimp only
      rw [hfrom, hto, hamount, if_neg hf]
      have hft' : ¬ t = f := fun hh => hft hh.symm
      constructor
      · rw [getBalanceMap_addToBalance, if_neg hft,
          getBalanceMap_addToBalance, if_pos rfl, abs_of_neg ha]
      · rw [getBalanceMap_addToBalance, if_pos rfl,
          getBalanceMap_addToBalance, if_neg hft', abs_of_neg ha]
        ring

/-- Evaluation of the amended C10: submitting and mining the negative
transfer `txNeg2` (amount −1 from `"a"` to `"b"`) on the fresh ledger
`bcW` raises `"a"`'s balance by 1 and lowers `"b"`'s by 1. -/
theorem negative_amount_admitted_witness :
    bcW.add_transaction txNeg2 0 =
      .ok { bcW with pending_transactions := bcW.pending_transactions ++ [txNeg2] } ∧
    bcMinedW.get_balance "a" = bcW.get_balance "a" + |(-1 : ℚ)| ∧
    bcMinedW.get_balance "b" = bcW.get_balance "b" - |(-1 : ℚ)| := by
  have h := negative_amount_admitted trivialHash bcW txNeg2 0 0 0 "a" "b" (-1)
    rfl (by norm_num) (by decide) (by decide) rfl
    (by norm_num [bcW, getBalanceMap])
  exact ⟨h.1, (h.2 bcMinedW rfl).1, (h.2 bcMinedW rfl).2⟩

/-- C10 as stated is false when the recipient coincides with the sender:
mining the negative self-transfer `txNeg` leaves the balance unchanged
instead of increasing it by `|amount|`. -/
theorem negative_amount_claim_counterexample :
    txNeg.tx_type.amount < 0 ∧
    txNeg.tx_type.fromAddr ≠ "genesis" ∧
    txNeg.tx_type.amount ≤ getBalanceMap bcW.balances txNeg.tx_type.fromAddr ∧
    bcW.add_transaction txNeg 0 =
      .ok { bcW with pending_transactions := bcW.pending_transactions ++ [txNeg] } ∧
    Blockchain.mine_pending_transactions trivialHash 0 0
      { bcW with pending_transactions := bcW.pending_transactions ++ [txNeg] } =
        some bcNegResult ∧
    ¬ (bcNegResult.get_balance txNeg.tx_type.fromAddr =
        bcW.get_balance txNeg.tx_type.fromAddr + |txNeg.tx_type.amount|) := by
  refine ⟨by norm_num [txNeg, TransactionType.amount], by decide, ?_, ?_, rfl, ?_⟩
  · norm_num [txNeg, bcW, getBalanceMap, TransactionType.amount,
      TransactionType.fromAddr]
  · unfold Blockchain.add_transaction
    have hvalid : txNeg.is_valid 0 = .ok () := rfl
    rw [hvalid]
    dsimp only
    rw [if_neg (by decide)]
    rw [if_neg ?hlt]
    case hlt =>
      norm_num [txNeg, bcW, getBalanceMap, TransactionType.amount,
        TransactionType.fromAddr]
  · norm_num [bcNegResult, bcW, Blockchain.get_balance, getBalanceMap,
      applyTx, addToBalance, txNeg, TransactionType.fromAddr,
      TransactionType.toAddr, TransactionType.amount, List.foldl]

end MultisigChain
